import Mathlib

/-!
Verification of the revaultd blockchain-reconciliation core against its
natural-language specification.

The definitions below are a shallow embedding of the Rust sources:
  * `src/daemon/bitcoind/interface.rs` — the RPC transport error classifier
    (`handle_error`), batch response validation (`make_requests`), the deposit
    reconciliation algorithm (`sync_deposits`) and the mempool membership
    helper (`is_in_mempool`);
  * `src/daemon/main.rs` — the coordination hub's `listvaults` request handler.

Transaction ids, scripts and JSON payloads are modelled as natural numbers
(only their identity matters to the verified properties); amounts are in
satoshi; elapsed wall-clock times are in milliseconds; `HashMap` is modelled
as an association list observed through `lookupKey`.
-/

namespace Revaultd

/-- An outpoint: (transaction id, output index), as in `bitcoin::OutPoint`. -/
structure OutPoint where
  txid : Nat
  vout : Nat
deriving DecidableEq, Repr

/-- A transaction output, as in `bitcoin::TxOut`: value in satoshi plus the
locking script (modelled as an opaque number). -/
structure TxOut where
  value : Nat
  script_pubkey : Nat
deriving DecidableEq, Repr

/-- Information about a utxo one of our descriptors points to
(`UtxoInfo` in `interface.rs`). -/
structure UtxoInfo where
  txo : TxOut
  is_confirmed : Bool
deriving DecidableEq, Repr

/-- The daemon's known-utxo map `HashMap<OutPoint, UtxoInfo>`, modelled as an
association list observed through `lookupKey`. -/
abbrev UtxoMap := List (OutPoint × UtxoInfo)

/-- First-match lookup, the model of `HashMap::get`. -/
def lookupKey : UtxoMap → OutPoint → Option UtxoInfo
  | [], _ => none
  | (k, v) :: rest, op => if k = op then some v else lookupKey rest op

/-- Removal of a key, the model of `HashMap::remove`'s effect on the map. -/
def eraseKey : UtxoMap → OutPoint → UtxoMap
  | [], _ => []
  | (k, v) :: rest, op =>
    if k = op then eraseKey rest op else (k, v) :: eraseKey rest op

/-- Insertion of a binding, the model of `HashMap::insert`. -/
def insertKey (m : UtxoMap) (op : OutPoint) (u : UtxoInfo) : UtxoMap :=
  (op, u) :: eraseKey m op

/-- Uniqueness of keys, the representation invariant of `HashMap`. -/
def nodupKeys : UtxoMap → Bool
  | [] => true
  | (k, _) :: rest => (lookupKey rest k).isNone && nodupKeys rest

theorem lookupKey_eraseKey_self (m : UtxoMap) (op : OutPoint) :
    lookupKey (eraseKey m op) op = none := by
  induction m with
  | nil => rfl
  | cons p rest ih =>
    obtain ⟨k, v⟩ := p
    by_cases hk : k = op
    · simpa [eraseKey, hk] using ih
    · simp [eraseKey, lookupKey, hk, ih]

theorem lookupKey_eraseKey_ne (m : UtxoMap) (op op' : OutPoint) (h : op' ≠ op) :
    lookupKey (eraseKey m op) op' = lookupKey m op' := by
  induction m with
  | nil => rfl
  | cons p rest ih =>
    obtain ⟨k, v⟩ := p
    by_cases hk : k = op
    · subst hk
      have hne : ¬k = op' := fun hh => h hh.symm
      simp [eraseKey, lookupKey, hne, ih]
    · simp [eraseKey, lookupKey, hk, ih]

theorem lookupKey_eraseKey (m : UtxoMap) (op op' : OutPoint) :
    lookupKey (eraseKey m op) op' = if op' = op then none else lookupKey m op' := by
  by_cases h : op' = op
  · simp [h, lookupKey_eraseKey_self]
  · simp [h, lookupKey_eraseKey_ne m op op' h]

theorem lookupKey_insertKey (m : UtxoMap) (op : OutPoint) (u : UtxoInfo)
    (op' : OutPoint) :
    lookupKey (insertKey m op u) op' = if op' = op then some u else lookupKey m op' := by
  by_cases h : op' = op
  · simp [insertKey, lookupKey, h]
  · have hne : ¬op = op' := fun hh => h hh.symm
    simp [insertKey, lookupKey, hne, h, lookupKey_eraseKey_ne m op op' h]

theorem eq_nil_of_lookupKey_none (m : UtxoMap)
    (h : ∀ op, lookupKey m op = none) : m = [] := by
  cases m with
  | nil => rfl
  | cons p rest =>
    exfalso
    obtain ⟨k, v⟩ := p
    have := h k
    simp [lookupKey] at this

/-- One entry of bitcoind's `listunspent` reply, with the fields
`sync_deposits` reads. The `amount` field (a BTC float in the source) is
modelled in satoshi, matching the `Amount::from_btc(..).as_sat()` conversion
the source applies; `address` stands for the address string, from which
`script_pubkey` is derived. -/
structure ListUnspentEntry where
  txid : Nat
  vout : Nat
  label : String
  confirmations : Nat
  address : Nat
  value : Nat
deriving DecidableEq, Repr

/-- Label used to tag deposit utxos in the watchonly wallet. -/
def DEPOSIT_UTXOS_LABEL : String := "revault-deposit"

/-- The outpoint of a `listunspent` entry (`outpoint_from_utxo`). -/
def opOf (e : ListUnspentEntry) : OutPoint :=
  { txid := e.txid, vout := e.vout }

/-- Whether an entry carries the deposit label, the test at the top of the
`sync_deposits` loop. -/
def isDeposit (e : ListUnspentEntry) : Bool :=
  e.label = DEPOSIT_UTXOS_LABEL

/-- Whether the list has a deposit-labelled entry at the given outpoint. -/
def hasDepositOp : List ListUnspentEntry → OutPoint → Bool
  | [], _ => false
  | e :: l, op => (isDeposit e && decide (opOf e = op)) || hasDepositOp l op

/-- No two deposit-labelled entries of the list share an outpoint; bitcoind's
`listunspent` guarantees this ("listunspent won't send duplicated entries",
as the source comments). -/
def nodupDepositOps : List ListUnspentEntry → Bool
  | [] => true
  | e :: l =>
    (if isDeposit e then !hasDepositOp l (opOf e) else true) && nodupDepositOps l

/-- The intermediate state of the `sync_deposits` loop: the three maps
`new_utxos`, `confirmed_utxos` and `spent_utxos` of the source. -/
structure SyncAcc where
  new_utxos : UtxoMap
  confirmed_utxos : UtxoMap
  spent_utxos : UtxoMap
deriving DecidableEq, Repr

/-- One iteration of the `for utxo in ...` loop of `sync_deposits`
(interface.rs lines 628-721): skip entries without the deposit label; a known
outpoint is removed from the possibly-spent set and emitted as newly confirmed
when it was unconfirmed and now has at least `min_conf` confirmations; an
unknown outpoint is emitted as a new utxo, always marked unconfirmed. -/
def syncStep (min_conf : Nat) (acc : SyncAcc) (utxo : ListUnspentEntry) : SyncAcc :=
  if isDeposit utxo = true then
    match lookupKey acc.spent_utxos (opOf utxo) with
    | some known_utxo =>
      if known_utxo.is_confirmed = false ∧ min_conf ≤ utxo.confirmations then
        { acc with
            confirmed_utxos := insertKey acc.confirmed_utxos (opOf utxo) known_utxo,
            spent_utxos := eraseKey acc.spent_utxos (opOf utxo) }
      else
        { acc with spent_utxos := eraseKey acc.spent_utxos (opOf utxo) }
    | none =>
      { acc with
          new_utxos := insertKey acc.new_utxos (opOf utxo)
            { txo := { value := utxo.value, script_pubkey := utxo.address },
              is_confirmed := false } }
  else acc

/-- The whole `sync_deposits` loop over the `listunspent` reply. -/
def syncLoop (min_conf : Nat) : List ListUnspentEntry → SyncAcc → SyncAcc
  | [], acc => acc
  | utxo :: rest, acc => syncLoop min_conf rest (syncStep min_conf acc utxo)

/-- Onchain state of the deposit utxos (`DepositsState` in interface.rs). -/
structure DepositsState where
  new_unconf : UtxoMap
  new_conf : UtxoMap
  new_spent : UtxoMap
deriving DecidableEq, Repr

/-- The reconciliation core of `sync_deposits` (interface.rs lines 605-728),
applied to the entries bitcoind returned: seed the possibly-spent set with the
known utxos, process every returned entry, and return whatever remains of the
possibly-spent set as newly spent. -/
def sync_deposits (deposits_utxos : UtxoMap) (min_conf : Nat)
    (unspent : List ListUnspentEntry) : DepositsState :=
  let acc := syncLoop min_conf unspent
    { new_utxos := [], confirmed_utxos := [], spent_utxos := deposits_utxos }
  { new_unconf := acc.new_utxos, new_conf := acc.confirmed_utxos,
    new_spent := acc.spent_utxos }

/-- Dust limit of the revault_tx dependency, in satoshi. -/
def DUST_LIMIT : Nat := 200000

/-- CPFP output value of the unvault transaction (revault_tx), in satoshi. -/
def UNVAULT_CPFP_VALUE : Nat := 30000

/-- Satoshis per bitcoin (`bitcoin::blockdata::constants::COIN_VALUE`). -/
def COIN_VALUE : Nat := 100000000

/-- The minimum deposit value (interface.rs line 28): the protocol's dust and
fee-bump floor plus a 5% leeway, computed in integer arithmetic exactly as the
`u64` expression in the source. -/
def MIN_DEPOSIT_VALUE : Nat := (DUST_LIMIT + UNVAULT_CPFP_VALUE) * 105 / 100

/-- The `minimumAmount` value the `listunspent` query of `sync_deposits`
sends to bitcoind (interface.rs line 623): the source divides the satoshi
constant by `COIN_VALUE` with `u64` (truncating) division, producing a whole
number of BTC. -/
def listunspent_minimum_amount_btc : Nat := MIN_DEPOSIT_VALUE / COIN_VALUE

/-- The effective satoshi threshold of the node-side filter: bitcoind keeps a
utxo when its amount is at least `minimumAmount` BTC. -/
def listunspent_minimum_amount_sats : Nat := listunspent_minimum_amount_btc * COIN_VALUE

/-- The node's side of the `listunspent` call issued by `sync_deposits`: the
watchonly wallet's utxo set restricted by the requested `minimumAmount`
(no label restriction is requested; labels are filtered client-side). -/
def node_listunspent (wallet_utxos : List ListUnspentEntry) : List ListUnspentEntry :=
  wallet_utxos.filter (fun e => listunspent_minimum_amount_sats ≤ e.value)

/-- The full `sync_deposits` call: the `listunspent` query against the node's
wallet view followed by the reconciliation loop. -/
def sync_deposits_full (deposits_utxos : UtxoMap) (min_conf : Nat)
    (wallet_utxos : List ListUnspentEntry) : DepositsState :=
  sync_deposits deposits_utxos min_conf (node_listunspent wallet_utxos)

theorem syncStep_skip (mc : Nat) (acc : SyncAcc) (e : ListUnspentEntry)
    (hd : isDeposit e = false) : syncStep mc acc e = acc := by
  simp [syncStep, hd]

theorem syncStep_confirm (mc : Nat) (acc : SyncAcc) (e : ListUnspentEntry) (u : UtxoInfo)
    (hd : isDeposit e = true) (hsp : lookupKey acc.spent_utxos (opOf e) = some u)
    (hc : u.is_confirmed = false ∧ mc ≤ e.confirmations) :
    syncStep mc acc e =
      { acc with
          confirmed_utxos := insertKey acc.confirmed_utxos (opOf e) u,
          spent_utxos := eraseKey acc.spent_utxos (opOf e) } := by
  simp [syncStep, hd, hsp, hc.1, hc.2]

theorem syncStep_drop (mc : Nat) (acc : SyncAcc) (e : ListUnspentEntry) (u : UtxoInfo)
    (hd : isDeposit e = true) (hsp : lookupKey acc.spent_utxos (opOf e) = some u)
    (hc : ¬(u.is_confirmed = false ∧ mc ≤ e.confirmations)) :
    syncStep mc acc e = { acc with spent_utxos := eraseKey acc.spent_utxos (opOf e) } := by
  simp [syncStep, hd, hsp, hc]

theorem syncStep_new (mc : Nat) (acc : SyncAcc) (e : ListUnspentEntry)
    (hd : isDeposit e = true) (hsp : lookupKey acc.spent_utxos (opOf e) = none) :
    syncStep mc acc e =
      { acc with
          new_utxos := insertKey acc.new_utxos (opOf e)
            { txo := { value := e.value, script_pubkey := e.address },
              is_confirmed := false } } := by
  simp [syncStep, hd, hsp]

theorem hasDepositOp_of_mem (l : List ListUnspentEntry) (e : ListUnspentEntry)
    (he : e ∈ l) (hd : isDeposit e = true) : hasDepositOp l (opOf e) = true := by
  induction l with
  | nil => cases he
  | cons e' l ih =>
    rcases List.mem_cons.mp he with h | h
    · subst h; simp [hasDepositOp, hd]
    · simp [hasDepositOp, ih h]

theorem nodupDepositOps_cons (e : ListUnspentEntry) (l : List ListUnspentEntry)
    (h : nodupDepositOps (e :: l) = true) :
    nodupDepositOps l = true ∧ (isDeposit e = true → hasDepositOp l (opOf e) = false) := by
  simp only [nodupDepositOps, Bool.and_eq_true] at h
  refine ⟨h.2, fun hd => ?_⟩
  have := h.1
  rw [if_pos hd] at this
  simpa using this

theorem syncLoop_spent (mc : Nat) (l : List ListUnspentEntry) (acc : SyncAcc)
    (op : OutPoint) :
    lookupKey (syncLoop mc l acc).spent_utxos op =
      if hasDepositOp l op then none else lookupKey acc.spent_utxos op := by
  induction l generalizing acc with
  | nil => simp [syncLoop, hasDepositOp]
  | cons e l ih =>
    simp only [syncLoop]
    cases hd : isDeposit e with
    | false =>
      rw [syncStep_skip mc acc e hd, ih]
      simp [hasDepositOp, hd]
    | true =>
      cases hsp : lookupKey acc.spent_utxos (opOf e) with
      | some u =>
        by_cases hc : u.is_confirmed = false ∧ mc ≤ e.confirmations
        · rw [syncStep_confirm mc acc e u hd hsp hc, ih]
          by_cases hop : opOf e = op
          · subst hop; simp [hasDepositOp, hd, lookupKey_eraseKey_self]
          · simp [hasDepositOp, hd, hop,
              lookupKey_eraseKey_ne _ _ _ (fun hh => hop hh.symm)]
        · rw [syncStep_drop mc acc e u hd hsp hc, ih]
          by_cases hop : opOf e = op
          · subst hop; simp [hasDepositOp, hd, lookupKey_eraseKey_self]
          · simp [hasDepositOp, hd, hop,
              lookupKey_eraseKey_ne _ _ _ (fun hh => hop hh.symm)]
      | none =>
        rw [syncStep_new mc acc e hd hsp, ih]
        by_cases hop : opOf e = op
        · subst hop; simp [hasDepositOp, hd, hsp]
        · simp [hasDepositOp, hd, hop]

theorem syncLoop_spent_none (mc : Nat) (l : List ListUnspentEntry) (acc : SyncAcc)
    (op : OutPoint) (h : lookupKey acc.spent_utxos op = none) :
    lookupKey (syncLoop mc l acc).spent_utxos op = none := by
  rw [syncLoop_spent]
  split_ifs <;> simp [h]

theorem syncLoop_new_preserved (mc : Nat) (l : List ListUnspentEntry) (op : OutPoint) :
    ∀ acc : SyncAcc, (lookupKey acc.new_utxos op).isSome = true →
      (lookupKey (syncLoop mc l acc).new_utxos op).isSome = true := by
  induction l with
  | nil => intro acc h; simpa [syncLoop] using h
  | cons e l ih =>
    intro acc h
    simp only [syncLoop]
    cases hd : isDeposit e with
    | false => rw [syncStep_skip mc acc e hd]; exact ih acc h
    | true =>
      cases hsp : lookupKey acc.spent_utxos (opOf e) with
      | some u =>
        by_cases hc : u.is_confirmed = false ∧ mc ≤ e.confirmations
        · rw [syncStep_confirm mc acc e u hd hsp hc]; exact ih _ h
        · rw [syncStep_drop mc acc e u hd hsp hc]; exact ih _ h
      | none =>
        rw [syncStep_new mc acc e hd hsp]
        apply ih
        simp only [lookupKey_insertKey]
        by_cases hop : op = opOf e <;> simp [hop, h]

theorem syncLoop_new_mem (mc : Nat) (l : List ListUnspentEntry) (op : OutPoint) :
    ∀ acc : SyncAcc, hasDepositOp l op = true →
      lookupKey acc.spent_utxos op = none →
      (lookupKey (syncLoop mc l acc).new_utxos op).isSome = true := by
  induction l with
  | nil => intro acc h; simp [hasDepositOp] at h
  | cons e l ih =>
    intro acc hmem hsp0
    simp only [syncLoop]
    cases hd : isDeposit e with
    | false =>
      rw [syncStep_skip mc acc e hd]
      refine ih acc ?_ hsp0
      simpa [hasDepositOp, hd] using hmem
    | true =>
      by_cases hop : opOf e = op
      · subst hop
        rw [syncStep_new mc acc e hd hsp0]
        apply syncLoop_new_preserved
        simp [lookupKey_insertKey]
      · have hmem' : hasDepositOp l op = true := by
          simpa [hasDepositOp, hd, hop] using hmem
        cases hsp : lookupKey acc.spent_utxos (opOf e) with
        | some u =>
          by_cases hc : u.is_confirmed = false ∧ mc ≤ e.confirmations
          · rw [syncStep_confirm mc acc e u hd hsp hc]
            refine ih _ hmem' ?_
            rwa [lookupKey_eraseKey_ne _ _ _ (fun hh => hop hh.symm)]
          · rw [syncStep_drop mc acc e u hd hsp hc]
            refine ih _ hmem' ?_
            rwa [lookupKey_eraseKey_ne _ _ _ (fun hh => hop hh.symm)]
        | none =>
          rw [syncStep_new mc acc e hd hsp]
          exact ih _ hmem' hsp0

theorem syncLoop_new_flag (mc : Nat) (l : List ListUnspentEntry) :
    ∀ acc : SyncAcc,
      (∀ op u, lookupKey acc.new_utxos op = some u → u.is_confirmed = false) →
      ∀ op u, lookupKey (syncLoop mc l acc).new_utxos op = some u →
        u.is_confirmed = false := by
  induction l with
  | nil => intro acc h; simpa [syncLoop] using h
  | cons e l ih =>
    intro acc h
    simp only [syncLoop]
    cases hd : isDeposit e with
    | false => rw [syncStep_skip mc acc e hd]; exact ih acc h
    | true =>
      cases hsp : lookupKey acc.spent_utxos (opOf e) with
      | some u =>
        by_cases hc : u.is_confirmed = false ∧ mc ≤ e.confirmations
        · rw [syncStep_confirm mc acc e u hd hsp hc]; exact ih _ h
        · rw [syncStep_drop mc acc e u hd hsp hc]; exact ih _ h
      | none =>
        rw [syncStep_new mc acc e hd hsp]
        apply ih
        intro op' u' hl
        rw [lookupKey_insertKey] at hl
        by_cases hop : op' = opOf e
        · rw [if_pos hop] at hl
          injection hl with h1
          rw [← h1]
        · rw [if_neg hop] at hl
          exact h op' u' hl

theorem syncLoop_new_backward (mc : Nat) (l : List ListUnspentEntry) (op : OutPoint) :
    ∀ acc : SyncAcc, (lookupKey (syncLoop mc l acc).new_utxos op).isSome = true →
      (lookupKey acc.new_utxos op).isSome = true ∨ hasDepositOp l op = true := by
  induction l with
  | nil => intro acc h; left; simpa [syncLoop] using h
  | cons e l ih =>
    intro acc h
    simp only [syncLoop] at h
    cases hd : isDeposit e with
    | false =>
      rw [syncStep_skip mc acc e hd] at h
      rcases ih acc h with h' | h'
      · left; exact h'
      · right; simp [hasDepositOp, h']
    | true =>
      cases hsp : lookupKey acc.spent_utxos (opOf e) with
      | some u =>
        by_cases hc : u.is_confirmed = false ∧ mc ≤ e.confirmations
        · rw [syncStep_confirm mc acc e u hd hsp hc] at h
          rcases ih _ h with h' | h'
          · left; exact h'
          · right; simp [hasDepositOp, h']
        · rw [syncStep_drop mc acc e u hd hsp hc] at h
          rcases ih _ h with h' | h'
          · left; exact h'
          · right; simp [hasDepositOp, h']
      | none =>
        rw [syncStep_new mc acc e hd hsp] at h
        rcases ih _ h with h' | h'
        · rw [lookupKey_insertKey] at h'
          by_cases hop : op = opOf e
          · right; simp [hasDepositOp, hd, hop]
          · rw [if_neg hop] at h'; left; exact h'
        · right; simp [hasDepositOp, h']

theorem syncLoop_new_backward_strong (mc : Nat) (l : List ListUnspentEntry)
    (op : OutPoint) :
    ∀ acc : SyncAcc, nodupDepositOps l = true →
      (lookupKey (syncLoop mc l acc).new_utxos op).isSome = true →
      (lookupKey acc.new_utxos op).isSome = true ∨
        (hasDepositOp l op = true ∧ lookupKey acc.spent_utxos op = none) := by
  induction l with
  | nil => intro acc _ h; left; simpa [syncLoop] using h
  | cons e l ih =>
    intro acc hnd h
    obtain ⟨hndl, hnde⟩ := nodupDepositOps_cons e l hnd
    simp only [syncLoop] at h
    cases hd : isDeposit e with
    | false =>
      rw [syncStep_skip mc acc e hd] at h
      rcases ih acc hndl h with h' | ⟨h1, h2⟩
      · left; exact h'
      · right; exact ⟨by simp [hasDepositOp, h1], h2⟩
    | true =>
      have hne : hasDepositOp l (opOf e) = false := hnde hd
      cases hsp : lookupKey acc.spent_utxos (opOf e) with
      | some u =>
        by_cases hc : u.is_confirmed = false ∧ mc ≤ e.confirmations
        · rw [syncStep_confirm mc acc e u hd hsp hc] at h
          rcases ih _ hndl h with h' | ⟨h1, h2⟩
          · left; exact h'
          · by_cases hop : op = opOf e
            · rw [hop] at h1; rw [h1] at hne; cases hne
            · right
              refine ⟨by simp [hasDepositOp, h1], ?_⟩
              rwa [lookupKey_eraseKey_ne _ _ _ hop] at h2
        · rw [syncStep_drop mc acc e u hd hsp hc] at h
          rcases ih _ hndl h with h' | ⟨h1, h2⟩
          · left; exact h'
          · by_cases hop : op = opOf e
            · rw [hop] at h1; rw [h1] at hne; cases hne
            · right
              refine ⟨by simp [hasDepositOp, h1], ?_⟩
              rwa [lookupKey_eraseKey_ne _ _ _ hop] at h2
      | none =>
        rw [syncStep_new mc acc e hd hsp] at h
        rcases ih _ hndl h with h' | ⟨h1, h2⟩
        · rw [lookupKey_insertKey] at h'
          by_cases hop : op = opOf e
          · right
            refine ⟨by simp [hasDepositOp, hd, hop], ?_⟩
            rw [hop]; exact hsp
          · rw [if_neg hop] at h'; left; exact h'
        · right; exact ⟨by simp [hasDepositOp, h1], h2⟩

theorem syncLoop_conf_preserved (mc : Nat) (l : List ListUnspentEntry) (op : OutPoint)
    (u : UtxoInfo) :
    ∀ acc : SyncAcc, lookupKey acc.confirmed_utxos op = some u →
      lookupKey acc.spent_utxos op = none →
      lookupKey (syncLoop mc l acc).confirmed_utxos op = some u := by
  induction l with
  | nil => intro acc h _; simpa [syncLoop] using h
  | cons e l ih =>
    intro acc hcf hsp0
    simp only [syncLoop]
    cases hd : isDeposit e with
    | false => rw [syncStep_skip mc acc e hd]; exact ih acc hcf hsp0
    | true =>
      cases hsp : lookupKey acc.spent_utxos (opOf e) with
      | some w =>
        have hop : ¬op = opOf e := by
          intro hh; rw [hh] at hsp0; rw [hsp0] at hsp; cases hsp
        by_cases hc : w.is_confirmed = false ∧ mc ≤ e.confirmations
        · rw [syncStep_confirm mc acc e w hd hsp hc]
          refine ih _ ?_ ?_
          · rw [lookupKey_insertKey, if_neg hop]; exact hcf
          · rw [lookupKey_eraseKey_ne _ _ _ hop]; exact hsp0
        · rw [syncStep_drop mc acc e w hd hsp hc]
          refine ih _ hcf ?_
          rw [lookupKey_eraseKey_ne _ _ _ hop]; exact hsp0
      | none =>
        rw [syncStep_new mc acc e hd hsp]
        exact ih _ hcf hsp0

theorem syncLoop_conf_forward (mc : Nat) (l : List ListUnspentEntry)
    (e : ListUnspentEntry) (u : UtxoInfo) :
    ∀ acc : SyncAcc, nodupDepositOps l = true → e ∈ l → isDeposit e = true →
      lookupKey acc.spent_utxos (opOf e) = some u →
      u.is_confirmed = false → mc ≤ e.confirmations →
      lookupKey (syncLoop mc l acc).confirmed_utxos (opOf e) = some u := by
  induction l with
  | nil => intro acc _ he; cases he
  | cons e' l ih =>
    intro acc hnd he hd hsp hu hconf
    obtain ⟨hndl, hnde⟩ := nodupDepositOps_cons e' l hnd
    simp only [syncLoop]
    rcases List.mem_cons.mp he with heq | hmem
    · subst heq
      rw [syncStep_confirm mc acc e u hd hsp ⟨hu, hconf⟩]
      refine syncLoop_conf_preserved mc l (opOf e) u _ ?_ ?_
      · rw [lookupKey_insertKey, if_pos rfl]
      · exact lookupKey_eraseKey_self _ _
    · cases hd' : isDeposit e' with
      | false =>
        rw [syncStep_skip mc acc e' hd']
        exact ih acc hndl hmem hd hsp hu hconf
      | true =>
        have hne : hasDepositOp l (opOf e') = false := hnde hd'
        have hop : ¬opOf e = opOf e' := by
          intro hh
          have hmm : hasDepositOp l (opOf e') = true := by
            rw [← hh]; exact hasDepositOp_of_mem l e hmem hd
          rw [hmm] at hne; cases hne
        cases hsp' : lookupKey acc.spent_utxos (opOf e') with
        | some w =>
          by_cases hc : w.is_confirmed = false ∧ mc ≤ e'.confirmations
          · rw [syncStep_confirm mc acc e' w hd' hsp' hc]
            refine ih _ hndl hmem hd ?_ hu hconf
            rw [lookupKey_eraseKey_ne _ _ _ hop]; exact hsp
          · rw [syncStep_drop mc acc e' w hd' hsp' hc]
            refine ih _ hndl hmem hd ?_ hu hconf
            rw [lookupKey_eraseKey_ne _ _ _ hop]; exact hsp
        | none =>
          rw [syncStep_new mc acc e' hd' hsp']
          exact ih _ hndl hmem hd hsp hu hconf

theorem syncLoop_conf_backward (mc : Nat) (l : List ListUnspentEntry) (op : OutPoint)
    (u : UtxoInfo) :
    ∀ acc : SyncAcc, lookupKey (syncLoop mc l acc).confirmed_utxos op = some u →
      lookupKey acc.confirmed_utxos op = some u ∨
        ∃ e, e ∈ l ∧ isDeposit e = true ∧ opOf e = op ∧
          lookupKey acc.spent_utxos op = some u ∧ u.is_confirmed = false ∧
          mc ≤ e.confirmations := by
  induction l with
  | nil => intro acc h; left; simpa [syncLoop] using h
  | cons e' l ih =>
    intro acc h
    simp only [syncLoop] at h
    cases hd : isDeposit e' with
    | false =>
      rw [syncStep_skip mc acc e' hd] at h
      rcases ih acc h with h' | ⟨e, hmem, rest⟩
      · left; exact h'
      · right; exact ⟨e, List.mem_cons_of_mem e' hmem, rest⟩
    | true =>
      cases hsp : lookupKey acc.spent_utxos (opOf e') with
      | some w =>
        by_cases hc : w.is_confirmed = false ∧ mc ≤ e'.confirmations
        · rw [syncStep_confirm mc acc e' w hd hsp hc] at h
          rcases ih _ h with h' | ⟨e, hmem, hde, hope, hspe, hue, hce⟩
          · rw [lookupKey_insertKey] at h'
            by_cases hop : op = opOf e'
            · rw [if_pos hop] at h'
              injection h' with hw
              right
              refine ⟨e', List.mem_cons_self e' l, hd, hop.symm, ?_, ?_, hc.2⟩
              · rw [hop, hsp, hw]
              · rw [← hw]; exact hc.1
            · rw [if_neg hop] at h'; left; exact h'
          · have hop : ¬op = opOf e' := by
              intro hh; rw [hh, lookupKey_eraseKey_self] at hspe; cases hspe
            right
            refine ⟨e, List.mem_cons_of_mem e' hmem, hde, hope, ?_, hue, hce⟩
            rwa [lookupKey_eraseKey_ne _ _ _ hop] at hspe
        · rw [syncStep_drop mc acc e' w hd hsp hc] at h
          rcases ih _ h with h' | ⟨e, hmem, hde, hope, hspe, hue, hce⟩
          · left; exact h'
          · have hop : ¬op = opOf e' := by
              intro hh; rw [hh, lookupKey_eraseKey_self] at hspe; cases hspe
            right
            refine ⟨e, List.mem_cons_of_mem e' hmem, hde, hope, ?_, hue, hce⟩
            rwa [lookupKey_eraseKey_ne _ _ _ hop] at hspe
      | none =>
        rw [syncStep_new mc acc e' hd hsp] at h
        rcases ih _ h with h' | ⟨e, hmem, rest⟩
        · left; exact h'
        · right; exact ⟨e, List.mem_cons_of_mem e' hmem, rest⟩

theorem exists_of_hasDepositOp (l : List ListUnspentEntry) (op : OutPoint)
    (h : hasDepositOp l op = true) :
    ∃ e, e ∈ l ∧ isDeposit e = true ∧ opOf e = op := by
  induction l with
  | nil => simp [hasDepositOp] at h
  | cons e l ih =>
    simp only [hasDepositOp, Bool.or_eq_true, Bool.and_eq_true, decide_eq_true_eq] at h
    rcases h with ⟨h1, h2⟩ | h
    · exact ⟨e, List.mem_cons_self e l, h1, h2⟩
    · obtain ⟨e', he', h1, h2⟩ := ih h
      exact ⟨e', List.mem_cons_of_mem e he', h1, h2⟩

/-- Concrete sample outpoint used by witnesses and counterexamples below. -/
def opA : OutPoint := { txid := 1, vout := 0 }

/-- Sample unconfirmed known deposit record. -/
def utxoA : UtxoInfo :=
  { txo := { value := 300000, script_pubkey := 7 }, is_confirmed := false }

/-- Sample confirmed known deposit record. -/
def utxoAconf : UtxoInfo :=
  { txo := { value := 300000, script_pubkey := 7 }, is_confirmed := true }

/-- Sample known-utxo map holding `opA`, unconfirmed. -/
def knownA : UtxoMap := [(opA, utxoA)]

/-- Sample known-utxo map holding `opA`, confirmed. -/
def knownAconf : UtxoMap := [(opA, utxoAconf)]

/-- Sample listunspent entry: `opA` reported with 3 confirmations. -/
def entryA3 : ListUnspentEntry :=
  { txid := 1, vout := 0, label := "revault-deposit", confirmations := 3,
    address := 7, value := 300000 }

/-- Sample listunspent entry: `opA` reported under the unvault label. -/
def entryAunvault : ListUnspentEntry :=
  { txid := 1, vout := 0, label := "revault-unvault", confirmations := 3,
    address := 7, value := 300000 }

/-- Sample listunspent entry: a brand-new deposit, already deeply confirmed. -/
def entryNewDeposit : ListUnspentEntry :=
  { txid := 2, vout := 1, label := "revault-deposit", confirmations := 100,
    address := 9, value := 500000 }

/-- Claim C2, counterexample: the three sets returned by `sync_deposits` do
not "together cover exactly the outpoints in L not in K plus the outpoints of
K absent from L". With K = {opA unconfirmed} and L reporting opA (deposit
label, 3 confirmations, min_conf = 1), opA lies in `new_conf` — so it is
covered by the three sets — although opA is both in K and reported in L, hence
in neither L\K nor K\L. -/
theorem c2_counterexample :
    (lookupKey (sync_deposits knownA 1 [entryA3]).new_conf opA).isSome = true ∧
    (lookupKey knownA opA).isSome = true ∧ hasDepositOp [entryA3] opA = true := by
  decide

/-- Claim C2 (amended): assuming the node reports each outpoint at most once
(which `listunspent` guarantees), the three sets returned by
`sync_deposits(K, m)` are pairwise disjoint; `new_unconf` is exactly the set
of deposit-labelled outpoints of L absent from K; `new_spent` is exactly the
set of outpoints of K with no deposit-labelled entry in L, carrying their
known records; and `new_conf` is contained in K ∩ L (the known outpoints
newly confirmed) — so the union of the three sets is (L\K) ∪ (K\L) ∪
(the newly confirmed ones), not (L\K) ∪ (K\L) alone. In particular every
outpoint of K absent from L appears in `new_spent` and never in `new_conf`. -/
theorem c2_sync_deposits_partition (K : UtxoMap) (mc : Nat)
    (L : List ListUnspentEntry) (hnd : nodupDepositOps L = true) :
    (∀ op, ¬((lookupKey (sync_deposits K mc L).new_unconf op).isSome = true ∧
        (lookupKey (sync_deposits K mc L).new_conf op).isSome = true)) ∧
    (∀ op, ¬((lookupKey (sync_deposits K mc L).new_unconf op).isSome = true ∧
        (lookupKey (sync_deposits K mc L).new_spent op).isSome = true)) ∧
    (∀ op, ¬((lookupKey (sync_deposits K mc L).new_conf op).isSome = true ∧
        (lookupKey (sync_deposits K mc L).new_spent op).isSome = true)) ∧
    (∀ op, (lookupKey (sync_deposits K mc L).new_unconf op).isSome = true ↔
        (hasDepositOp L op = true ∧ lookupKey K op = none)) ∧
    (∀ op u, lookupKey (sync_deposits K mc L).new_spent op = some u ↔
        (lookupKey K op = some u ∧ hasDepositOp L op = false)) ∧
    (∀ op, (lookupKey (sync_deposits K mc L).new_conf op).isSome = true →
        (lookupKey K op).isSome = true ∧ hasDepositOp L op = true) := by
  simp only [sync_deposits]
  have hunc : ∀ op, (lookupKey (syncLoop mc L
      { new_utxos := [], confirmed_utxos := [], spent_utxos := K }).new_utxos op).isSome
        = true ↔ (hasDepositOp L op = true ∧ lookupKey K op = none) := by
    intro op
    constructor
    · intro h
      rcases syncLoop_new_backward_strong mc L op _ hnd h with h' | h'
      · simp [lookupKey] at h'
      · exact h'
    · intro ⟨h1, h2⟩
      exact syncLoop_new_mem mc L op _ h1 h2
  have hsp : ∀ op, lookupKey (syncLoop mc L
      { new_utxos := [], confirmed_utxos := [], spent_utxos := K }).spent_utxos op =
        if hasDepositOp L op then none else lookupKey K op := fun op =>
    syncLoop_spent mc L _ op
  have hcf : ∀ op u, lookupKey (syncLoop mc L
      { new_utxos := [], confirmed_utxos := [], spent_utxos := K }).confirmed_utxos op
        = some u → lookupKey K op = some u ∧ hasDepositOp L op = true := by
    intro op u h
    rcases syncLoop_conf_backward mc L op u _ h with h' | ⟨e, hmem, hde, hope, hspe, _, _⟩
    · simp [lookupKey] at h'
    · exact ⟨hspe, hope ▸ hasDepositOp_of_mem L e hmem hde⟩
  refine ⟨?_, ?_, ?_, ?_, ?_, ?_⟩
  · intro op ⟨h1, h2⟩
    obtain ⟨u, hu⟩ := Option.isSome_iff_exists.mp h2
    have := (hcf op u hu).1
    have h1' := ((hunc op).mp h1).2
    rw [h1'] at this
    cases this
  · intro op ⟨h1, h2⟩
    obtain ⟨u, hu⟩ := Option.isSome_iff_exists.mp h2
    rw [hsp op] at hu
    have h1' := ((hunc op).mp h1).1
    rw [h1'] at hu
    simp at hu
  · intro op ⟨h1, h2⟩
    obtain ⟨u, hu⟩ := Option.isSome_iff_exists.mp h2
    rw [hsp op] at hu
    obtain ⟨w, hw⟩ := Option.isSome_iff_exists.mp h1
    have := (hcf op w hw).2
    rw [this] at hu
    simp at hu
  · exact hunc
  · intro op u
    rw [hsp op]
    constructor
    · intro h
      cases hb : hasDepositOp L op with
      | true => rw [hb] at h; simp at h
      | false => rw [hb] at h; simp at h; exact ⟨h, rfl⟩
    · intro ⟨h1, h2⟩
      rw [h2]
      simpa using h1
  · intro op h
    obtain ⟨u, hu⟩ := Option.isSome_iff_exists.mp h
    have := hcf op u hu
    exact ⟨by rw [this.1]; rfl, this.2⟩

/-- Claim C2 (witness): the amended partition theorem applied to the concrete
scenario K = {opA unconfirmed}, L = [opA with 3 confirmations]. -/
theorem c2_sync_deposits_partition_witness :
    nodupDepositOps [entryA3] = true ∧
    (∀ op, (lookupKey (sync_deposits knownA 1 [entryA3]).new_unconf op).isSome = true ↔
        (hasDepositOp [entryA3] op = true ∧ lookupKey knownA op = none)) :=
  ⟨by decide, (c2_sync_deposits_partition knownA 1 [entryA3] (by decide)).2.2.2.1⟩

/-- Claim C3: every deposit-labelled entry the node reports at an outpoint
absent from `known` lands in `new_unconf` with `is_confirmed = false`,
whatever confirmation count the node reports for it. -/
theorem c3_new_deposits_unconfirmed (K : UtxoMap) (mc : Nat)
    (L : List ListUnspentEntry) (e : ListUnspentEntry)
    (he : e ∈ L) (hd : isDeposit e = true) (hk : lookupKey K (opOf e) = none) :
    ∃ u, lookupKey (sync_deposits K mc L).new_unconf (opOf e) = some u ∧
      u.is_confirmed = false := by
  simp only [sync_deposits]
  have hmem : hasDepositOp L (opOf e) = true := hasDepositOp_of_mem L e he hd
  have hsome := syncLoop_new_mem mc L (opOf e)
    { new_utxos := [], confirmed_utxos := [], spent_utxos := K } hmem hk
  obtain ⟨u, hu⟩ := Option.isSome_iff_exists.mp hsome
  refine ⟨u, hu, ?_⟩
  refine syncLoop_new_flag mc L _ ?_ (opOf e) u hu
  intro op' u' h'
  simp [lookupKey] at h'

/-- Claim C3 (witness): a brand-new deposit reported with 100 confirmations
(min_conf = 1) still enters `new_unconf` flagged unconfirmed. -/
theorem c3_new_deposits_unconfirmed_witness :
    entryNewDeposit ∈ [entryNewDeposit] ∧ isDeposit entryNewDeposit = true ∧
    lookupKey [] (opOf entryNewDeposit) = none ∧
    (∃ u, lookupKey (sync_deposits [] 1 [entryNewDeposit]).new_unconf
        (opOf entryNewDeposit) = some u ∧ u.is_confirmed = false) :=
  ⟨by decide, by decide, rfl,
    c3_new_deposits_unconfirmed [] 1 [entryNewDeposit] entryNewDeposit
      (by decide) (by decide) rfl⟩

/-- Claim C9: the records attached to `new_conf` and `new_spent` are exactly
the caller-supplied `known` records, unchanged; in particular a `new_conf`
entry still carries `is_confirmed = false` — the sync engine reports the
confirmation event but never itself flips the flag. -/
theorem c9_known_records_unchanged (K : UtxoMap) (mc : Nat)
    (L : List ListUnspentEntry) (op : OutPoint) (u : UtxoInfo) :
    (lookupKey (sync_deposits K mc L).new_conf op = some u →
      lookupKey K op = some u ∧ u.is_confirmed = false) ∧
    (lookupKey (sync_deposits K mc L).new_spent op = some u →
      lookupKey K op = some u) := by
  simp only [sync_deposits]
  constructor
  · intro h
    rcases syncLoop_conf_backward mc L op u _ h with h' | ⟨e, _, _, _, hspe, hue, _⟩
    · simp [lookupKey] at h'
    · exact ⟨hspe, hue⟩
  · intro h
    rw [syncLoop_spent] at h
    cases hb : hasDepositOp L op with
    | true => rw [hb] at h; simp at h
    | false => rw [hb] at h; simpa using h

/-- Claim C9 (witness): in the concrete confirmation scenario the `new_conf`
record at opA is the caller's record, still flagged unconfirmed; in the
concrete spend scenario the `new_spent` record is the caller's record. -/
theorem c9_known_records_unchanged_witness :
    (lookupKey knownA opA = some utxoA ∧ utxoA.is_confirmed = false) ∧
    lookupKey knownAconf opA = some utxoAconf :=
  ⟨(c9_known_records_unchanged knownA 1 [entryA3] opA utxoA).1 (by decide),
    (c9_known_records_unchanged knownAconf 1 [] opA utxoAconf).2 (by decide)⟩

/-- Claim C10: an entry whose label is not exactly the deposit label is
treated as absent from the node's view: an outpoint all of whose reported
entries carry another label never reaches `new_unconf` or `new_conf`, and if
it is known it is emitted in `new_spent` (with its known record) even though
the node still reports it unspent. -/
theorem c10_label_mismatch_is_absent (K : UtxoMap) (mc : Nat)
    (L : List ListUnspentEntry) (op : OutPoint)
    (h : ∀ e, e ∈ L → opOf e = op → isDeposit e = false) :
    lookupKey (sync_deposits K mc L).new_unconf op = none ∧
    lookupKey (sync_deposits K mc L).new_conf op = none ∧
    lookupKey (sync_deposits K mc L).new_spent op = lookupKey K op := by
  have hno : hasDepositOp L op = false := by
    cases hb : hasDepositOp L op with
    | false => rfl
    | true =>
      obtain ⟨e, hmem, hde, hope⟩ := exists_of_hasDepositOp L op hb
      rw [h e hmem hope] at hde
      cases hde
  simp only [sync_deposits]
  refine ⟨?_, ?_, ?_⟩
  · cases hx : lookupKey (syncLoop mc L
        { new_utxos := [], confirmed_utxos := [], spent_utxos := K }).new_utxos op with
    | none => rfl
    | some u =>
      exfalso
      have hs : (lookupKey (syncLoop mc L
          { new_utxos := [], confirmed_utxos := [], spent_utxos := K }).new_utxos
            op).isSome = true := by rw [hx]; rfl
      rcases syncLoop_new_backward mc L op _ hs with h' | h'
      · simp [lookupKey] at h'
      · rw [h'] at hno; cases hno
  · cases hx : lookupKey (syncLoop mc L
        { new_utxos := [], confirmed_utxos := [], spent_utxos := K }).confirmed_utxos op with
    | none => rfl
    | some u =>
      exfalso
      rcases syncLoop_conf_backward mc L op u _ hx with h' | ⟨e, hmem, hde, hope, _, _, _⟩
      · simp [lookupKey] at h'
      · rw [h e hmem hope] at hde; cases hde
  · rw [syncLoop_spent, hno]
    simp

/-- Claim C10 (witness): a known outpoint the node reports only under the
unvault label is emitted as newly spent, with its known record, and reaches
neither `new_unconf` nor `new_conf`. -/
theorem c10_label_mismatch_is_absent_witness :
    lookupKey (sync_deposits knownAconf 1 [entryAunvault]).new_unconf opA = none ∧
    lookupKey (sync_deposits knownAconf 1 [entryAunvault]).new_conf opA = none ∧
    lookupKey (sync_deposits knownAconf 1 [entryAunvault]).new_spent opA =
      lookupKey knownAconf opA :=
  c10_label_mismatch_is_absent knownAconf 1 [entryAunvault] opA (by decide)

/-- The known-part of the delta update described by claim C4: known entries
reported newly spent are dropped, known entries reported newly confirmed are
flagged confirmed, the rest are kept unchanged. -/
def applyDeltaKnown (d : DepositsState) : UtxoMap → UtxoMap
  | [] => []
  | (k, v) :: rest =>
    if (lookupKey d.new_spent k).isSome then applyDeltaKnown d rest
    else if (lookupKey d.new_conf k).isSome then
      (k, { txo := v.txo, is_confirmed := true }) :: applyDeltaKnown d rest
    else (k, v) :: applyDeltaKnown d rest

/-- The update of the known-utxo map by one reconciliation delta, as claim C4
describes it: new unconfirmed outpoints added (as unconfirmed, which is how
`sync_deposits` emits them), newly confirmed ones flagged confirmed, newly
spent ones removed. -/
def applyDelta (known : UtxoMap) (d : DepositsState) : UtxoMap :=
  applyDeltaKnown d known ++ d.new_unconf

theorem lookupKey_append_none (a b : UtxoMap) (op : OutPoint)
    (h : lookupKey a op = none) : lookupKey (a ++ b) op = lookupKey b op := by
  induction a with
  | nil => rfl
  | cons p rest ih =>
    obtain ⟨k, v⟩ := p
    by_cases hk : k = op
    · rw [lookupKey, if_pos hk] at h; cases h
    · rw [lookupKey, if_neg hk] at h
      show lookupKey ((k, v) :: (rest ++ b)) op = lookupKey b op
      rw [lookupKey, if_neg hk]
      exact ih h

theorem lookupKey_append_some (a b : UtxoMap) (op : OutPoint) (u : UtxoInfo)
    (h : lookupKey a op = some u) : lookupKey (a ++ b) op = some u := by
  induction a with
  | nil => cases h
  | cons p rest ih =>
    obtain ⟨k, v⟩ := p
    by_cases hk : k = op
    · rw [lookupKey, if_pos hk] at h
      show lookupKey ((k, v) :: (rest ++ b)) op = some u
      rw [lookupKey, if_pos hk]
      exact h
    · rw [lookupKey, if_neg hk] at h
      show lookupKey ((k, v) :: (rest ++ b)) op = some u
      rw [lookupKey, if_neg hk]
      exact ih h

theorem nodupKeys_cons (k : OutPoint) (v : UtxoInfo) (rest : UtxoMap)
    (h : nodupKeys ((k, v) :: rest) = true) :
    lookupKey rest k = none ∧ nodupKeys rest = true := by
  simp only [nodupKeys, Bool.and_eq_true, Option.isNone_iff_eq_none] at h
  exact h

theorem lookupKey_applyDeltaKnown_none (d : DepositsState) (K : UtxoMap)
    (op : OutPoint) (h : lookupKey K op = none) :
    lookupKey (applyDeltaKnown d K) op = none := by
  induction K with
  | nil => rfl
  | cons p rest ih =>
    obtain ⟨k, v⟩ := p
    by_cases hk : k = op
    · rw [lookupKey, if_pos hk] at h; cases h
    · rw [lookupKey, if_neg hk] at h
      rw [applyDeltaKnown]
      by_cases h1 : (lookupKey d.new_spent k).isSome = true
      · rw [if_pos h1]; exact ih h
      · rw [if_neg h1]
        by_cases h2 : (lookupKey d.new_conf k).isSome = true
        · rw [if_pos h2, lookupKey, if_neg hk]; exact ih h
        · rw [if_neg h2, lookupKey, if_neg hk]; exact ih h

theorem lookupKey_applyDeltaKnown_some (d : DepositsState) (K : UtxoMap)
    (op : OutPoint) (u : UtxoInfo) (hnd : nodupKeys K = true)
    (h : lookupKey K op = some u) :
    lookupKey (applyDeltaKnown d K) op =
      if (lookupKey d.new_spent op).isSome then none
      else if (lookupKey d.new_conf op).isSome then
        some { txo := u.txo, is_confirmed := true }
      else some u := by
  induction K with
  | nil => cases h
  | cons p rest ih =>
    obtain ⟨k, v⟩ := p
    obtain ⟨hrest, hndr⟩ := nodupKeys_cons k v rest hnd
    by_cases hk : k = op
    · subst hk
      rw [lookupKey, if_pos rfl] at h
      injection h with h
      subst h
      rw [applyDeltaKnown]
      split_ifs with h1 h2
      · exact lookupKey_applyDeltaKnown_none d rest k hrest
      · rw [lookupKey, if_pos rfl]
      · rw [lookupKey, if_pos rfl]
    · rw [lookupKey, if_neg hk] at h
      rw [applyDeltaKnown]
      by_cases h1 : (lookupKey d.new_spent k).isSome = true
      · rw [if_pos h1]; exact ih hndr h
      · rw [if_neg h1]
        by_cases h2 : (lookupKey d.new_conf k).isSome = true
        · rw [if_pos h2, lookupKey, if_neg hk]; exact ih hndr h
        · rw [if_neg h2, lookupKey, if_neg hk]; exact ih hndr h

theorem lookupKey_applyDelta_none (K : UtxoMap) (d : DepositsState) (op : OutPoint)
    (h : lookupKey K op = none) :
    lookupKey (applyDelta K d) op = lookupKey d.new_unconf op :=
  lookupKey_append_none _ _ _ (lookupKey_applyDeltaKnown_none d K op h)

theorem lookupKey_applyDelta_some (K : UtxoMap) (d : DepositsState) (op : OutPoint)
    (u : UtxoInfo) (hnd : nodupKeys K = true) (h : lookupKey K op = some u) :
    lookupKey (applyDelta K d) op =
      if (lookupKey d.new_spent op).isSome then lookupKey d.new_unconf op
      else if (lookupKey d.new_conf op).isSome then
        some { txo := u.txo, is_confirmed := true }
      else some u := by
  have hx := lookupKey_applyDeltaKnown_some d K op u hnd h
  split_ifs at hx ⊢ with h1 h2
  · exact lookupKey_append_none _ _ _ hx
  · exact lookupKey_append_some _ _ _ _ hx
  · exact lookupKey_append_some _ _ _ _ hx

/-- Claim C4, counterexample: `sync_deposits` is not idempotent as claimed.
With K = ∅ and the node reporting a brand-new deposit that already carries 100
confirmations (min_conf = 1), the first call emits it in `new_unconf`
(recorded unconfirmed); after applying that delta to K, a second call against
the same node state emits the deposit in `new_conf` — the second call does not
return three empty sets. -/
theorem c4_counterexample :
    (sync_deposits (applyDelta [] (sync_deposits [] 1 [entryNewDeposit])) 1
        [entryNewDeposit]).new_conf ≠ [] := by
  decide

/-- Claim C4 (amended): calling `sync_deposits` twice with the same node state
and `known` updated by the first call's output yields an empty delta, provided
no brand-new deposit (outpoint absent from K) is already reported by the node
with at least `min_conf` confirmations. (Without that proviso the second call
reports such deposits in `new_conf` — the spec's deliberate two-phase arrival;
only the third call is then empty.) The node list is assumed to report each
outpoint at most once and K to have unique keys, as `listunspent` and
`HashMap` guarantee. -/
theorem c4_idempotence (K : UtxoMap) (mc : Nat) (L : List ListUnspentEntry)
    (hK : nodupKeys K = true) (hnd : nodupDepositOps L = true)
    (hfresh : ∀ e, e ∈ L → isDeposit e = true → lookupKey K (opOf e) = none →
      e.confirmations < mc) :
    (sync_deposits (applyDelta K (sync_deposits K mc L)) mc L).new_unconf = [] ∧
    (sync_deposits (applyDelta K (sync_deposits K mc L)) mc L).new_conf = [] ∧
    (sync_deposits (applyDelta K (sync_deposits K mc L)) mc L).new_spent = [] := by
  obtain ⟨D, hD⟩ : ∃ D, sync_deposits K mc L = D := ⟨_, rfl⟩
  have hDun_some : ∀ op, (lookupKey D.new_unconf op).isSome = true →
      hasDepositOp L op = true ∧ lookupKey K op = none := by
    intro op h
    rw [← hD] at h
    simp only [sync_deposits] at h
    rcases syncLoop_new_backward_strong mc L op _ hnd h with h' | h'
    · simp [lookupKey] at h'
    · exact h'
  have hDun_mem : ∀ op, hasDepositOp L op = true → lookupKey K op = none →
      (lookupKey D.new_unconf op).isSome = true := by
    intro op h1 h2
    rw [← hD]
    simp only [sync_deposits]
    exact syncLoop_new_mem mc L op _ h1 h2
  have hDsp : ∀ op, lookupKey D.new_spent op =
      if hasDepositOp L op then none else lookupKey K op := by
    intro op
    rw [← hD]
    simp only [sync_deposits]
    exact syncLoop_spent mc L _ op
  have hDcf_fwd : ∀ e u, e ∈ L → isDeposit e = true →
      lookupKey K (opOf e) = some u → u.is_confirmed = false →
      mc ≤ e.confirmations → lookupKey D.new_conf (opOf e) = some u := by
    intro e u hmem hde hsp hu hc
    rw [← hD]
    simp only [sync_deposits]
    exact syncLoop_conf_forward mc L e u _ hnd hmem hde hsp hu hc
  rw [hD]
  have hK'_absent : ∀ op, hasDepositOp L op = false →
      lookupKey (applyDelta K D) op = none := by
    intro op hno
    have hun_none : lookupKey D.new_unconf op = none := by
      cases hx : lookupKey D.new_unconf op with
      | none => rfl
      | some w =>
        exfalso
        have hh := (hDun_some op (by rw [hx]; rfl)).1
        rw [hh] at hno
        cases hno
    cases hKop : lookupKey K op with
    | some u0 =>
      have hsps : (lookupKey D.new_spent op).isSome = true := by
        rw [hDsp op, hno]
        simp [hKop]
      rw [lookupKey_applyDelta_some K D op u0 hK hKop, if_pos hsps]
      exact hun_none
    | none =>
      rw [lookupKey_applyDelta_none K D op hKop]
      exact hun_none
  have hK'_present : ∀ op, hasDepositOp L op = true →
      lookupKey (applyDelta K D) op = none → False := by
    intro op h1 hcd
    cases hKop : lookupKey K op with
    | some u0 =>
      have hsp0 : lookupKey D.new_spent op = none := by
        rw [hDsp op]
        simp [h1]
      rw [lookupKey_applyDelta_some K D op u0 hK hKop, hsp0] at hcd
      rw [if_neg (by simp)] at hcd
      by_cases hc2 : (lookupKey D.new_conf op).isSome = true
      · rw [if_pos hc2] at hcd; exact Option.noConfusion hcd
      · rw [if_neg hc2] at hcd; exact Option.noConfusion hcd
    | none =>
      rw [lookupKey_applyDelta_none K D op hKop] at hcd
      have hm := hDun_mem op h1 hKop
      rw [hcd] at hm
      simp at hm
  refine ⟨?_, ?_, ?_⟩
  · apply eq_nil_of_lookupKey_none
    intro op
    cases hx : lookupKey (sync_deposits (applyDelta K D) mc L).new_unconf op with
    | none => rfl
    | some u =>
      exfalso
      have hxs : (lookupKey (sync_deposits (applyDelta K D) mc L).new_unconf
          op).isSome = true := by rw [hx]; rfl
      simp only [sync_deposits] at hxs
      rcases syncLoop_new_backward_strong mc L op _ hnd hxs with h' | ⟨h1, h2⟩
      · simp [lookupKey] at h'
      · exact hK'_present op h1 h2
  · apply eq_nil_of_lookupKey_none
    intro op
    cases hx : lookupKey (sync_deposits (applyDelta K D) mc L).new_conf op with
    | none => rfl
    | some u' =>
      exfalso
      have hx' : lookupKey (syncLoop mc L
          { new_utxos := [], confirmed_utxos := [],
            spent_utxos := applyDelta K D }).confirmed_utxos op = some u' := by
        simpa only [sync_deposits] using hx
      rcases syncLoop_conf_backward mc L op u' _ hx' with
        h' | ⟨e, hmem, hde, hope, hspe, hue, hce⟩
      · simp [lookupKey] at h'
      · cases hKop : lookupKey K op with
        | none =>
          have hfr := hfresh e hmem hde (by rw [hope]; exact hKop)
          exact absurd hce (by omega)
        | some u0 =>
          have h1 : hasDepositOp L op = true := by
            rw [← hope]; exact hasDepositOp_of_mem L e hmem hde
          have hsp0 : lookupKey D.new_spent op = none := by
            rw [hDsp op]
            simp [h1]
          rw [lookupKey_applyDelta_some K D op u0 hK hKop, hsp0] at hspe
          rw [if_neg (by simp)] at hspe
          by_cases hc2 : (lookupKey D.new_conf op).isSome = true
          · rw [if_pos hc2] at hspe
            injection hspe with hh
            rw [← hh] at hue
            simp at hue
          · rw [if_neg hc2] at hspe
            injection hspe with hh
            have hcf := hDcf_fwd e u0 hmem hde (by rw [hope]; exact hKop)
              (by rw [hh]; exact hue) hce
            rw [hope] at hcf
            rw [hcf] at hc2
            simp at hc2
  · apply eq_nil_of_lookupKey_none
    intro op
    have hsp' : lookupKey (sync_deposits (applyDelta K D) mc L).new_spent op =
        if hasDepositOp L op then none else lookupKey (applyDelta K D) op := by
      simp only [sync_deposits]
      exact syncLoop_spent mc L _ op
    rw [hsp']
    cases hb : hasDepositOp L op with
    | true => simp
    | false => simpa using hK'_absent op hb

/-- Claim C4 (witness): the amended idempotence theorem applied to the
concrete scenario K = {opA unconfirmed}, L = [opA with 3 confirmations],
min_conf = 1 (no brand-new deposit is reported confirmed, vacuously). -/
theorem c4_idempotence_witness :
    nodupKeys knownA = true ∧ nodupDepositOps [entryA3] = true ∧
    ((sync_deposits (applyDelta knownA (sync_deposits knownA 1 [entryA3])) 1
        [entryA3]).new_unconf = [] ∧
      (sync_deposits (applyDelta knownA (sync_deposits knownA 1 [entryA3])) 1
        [entryA3]).new_conf = [] ∧
      (sync_deposits (applyDelta knownA (sync_deposits knownA 1 [entryA3])) 1
        [entryA3]).new_spent = []) :=
  ⟨by decide, by decide,
    c4_idempotence knownA 1 [entryA3] (by decide) (by decide) (by decide)⟩

/-- Claim C1 (code bug): the `listunspent` query of `sync_deposits` does not
carry a minimum-value filter equal to the deposit floor. `MIN_DEPOSIT_VALUE`
is 241500 satoshi, but the source computes `minimumAmount` as
`MIN_DEPOSIT_VALUE / COIN_VALUE` with truncating `u64` division, which is
0 BTC: the filter is void, and a deposit-labelled 1000-satoshi output — far
below the floor — is returned by the node and tracked in `new_unconf`. -/
theorem c1_minimum_amount_truncated :
    listunspent_minimum_amount_btc = 0 ∧ 0 < MIN_DEPOSIT_VALUE ∧
    lookupKey (sync_deposits_full [] 1
        [{ txid := 9, vout := 0, label := "revault-deposit", confirmations := 0,
           address := 7, value := 1000 }]).new_unconf { txid := 9, vout := 0 } =
      some { txo := { value := 1000, script_pubkey := 7 }, is_confirmed := false } ∧
    1000 < MIN_DEPOSIT_VALUE := by
  refine ⟨rfl, by decide, by decide, by decide⟩

/-- The `simple_http::Error` variants `handle_error` distinguishes; `OtherHttp`
stands for every variant hitting the catch-all arm. -/
inductive SimpleHttpError
  | InvalidUrl
  | SocketError
  | HttpParseError
  | OtherHttp
deriving DecidableEq, Repr

/-- The `jsonrpc::Error` variants `handle_error` distinguishes. A transport
error carries the result of the `Any`-downcast to `simple_http::Error`
(`none` when the downcast fails); `Rpc` carries the node's error code;
`OtherRpc` stands for the remaining variants hitting the catch-all arm. -/
inductive JsonRpcError
  | Transport (downcast : Option SimpleHttpError)
  | Json
  | Rpc (code : Int)
  | OtherRpc
deriving DecidableEq, Repr

/-- The daemon-side error type (`BitcoindError`), restricted to the variants
the embedded functions produce. -/
inductive BitcoindError
  | Server (e : JsonRpcError)
  | BatchMissingResponse
  | Custom (msg : String)
deriving DecidableEq, Repr

/-- The retry classifier of the RPC transport layer (`handle_error`,
interface.rs lines 101-155). `elapsed_ms` is the number of milliseconds
between the request's start timestamp and the single `Instant::now()` taken at
the top of the function. `Except.ok ()` means the caller retries the request;
`Except.error` aborts it. The `HttpParseError` arm falls through to the
general 45-second transport check when it does not return, exactly as the
source control flow does. -/
def handle_error (e : JsonRpcError) (elapsed_ms : Nat) : Except BitcoindError Unit :=
  match e with
  | JsonRpcError.Transport dc =>
    match dc with
    | some SimpleHttpError.InvalidUrl => Except.error (BitcoindError.Server e)
    | some SimpleHttpError.SocketError => Except.error (BitcoindError.Server e)
    | some SimpleHttpError.HttpParseError =>
      if 1000 < elapsed_ms then Except.error (BitcoindError.Server e)
      else if 45000 < elapsed_ms then Except.error (BitcoindError.Server e)
      else Except.ok ()
    | _ =>
      if 45000 < elapsed_ms then Except.error (BitcoindError.Server e)
      else Except.ok ()
  | JsonRpcError.Json =>
    if 1000 < elapsed_ms then Except.error (BitcoindError.Server e)
    else Except.ok ()
  | _ => Except.error (BitcoindError.Server e)

/-- Claim C6: on a malformed-response-framing transport failure
(`HttpParseError`), the classifier requests a retry exactly when at most one
second has elapsed since the start timestamp, and returns the fatal server
error exactly when more than one second has elapsed — hence the request is
retried exactly once, the retry washing past the one-second window. -/
theorem c6_http_parse_retry_window (t : Nat) :
    (handle_error (JsonRpcError.Transport (some SimpleHttpError.HttpParseError)) t =
        Except.ok () ↔ t ≤ 1000) ∧
    (handle_error (JsonRpcError.Transport (some SimpleHttpError.HttpParseError)) t =
        Except.error (BitcoindError.Server (JsonRpcError.Transport
          (some SimpleHttpError.HttpParseError))) ↔ 1000 < t) := by
  by_cases h1 : 1000 < t
  · have h2 : ¬t ≤ 1000 := by omega
    simp [handle_error, h1, h2]
  · have h2 : t ≤ 1000 := by omega
    have h3 : ¬45000 < t := by omega
    simp [handle_error, h1, h2, h3]

/-- A JSON payload returned by the node, modelled opaquely. -/
abbrev JsonValue := Nat

/-- The iterator-collect step of `make_requests`: fold a list of per-request
results into one result, stopping at the first error — the model of
`.map(|resp| resp.result()).collect::<Result<Vec<Json>, _>>()`. -/
def collect_results : List (Except JsonRpcError JsonValue) →
    Except JsonRpcError (List JsonValue)
  | [] => Except.ok []
  | r :: rs =>
    match r with
    | Except.error e => Except.error e
    | Except.ok j =>
      match collect_results rs with
      | Except.error e => Except.error e
      | Except.ok js => Except.ok (j :: js)

/-- Whether a per-request result is a success. -/
def isOkResult : Except JsonRpcError JsonValue → Bool
  | Except.ok _ => true
  | Except.error _ => false

/-- The response-validation path of `make_requests` (interface.rs lines
186-222) for one successful transport round: bitcoind answers a batch of
`n` requests with a vector of optional responses; the `None` slots are
dropped (`filter_map`), each remaining response is resolved to its result
(collect, stopping at the first RPC error), and a final count check rejects
any mismatch with `BatchMissingResponse`. -/
def make_requests (n : Nat)
    (resps : List (Option (Except JsonRpcError JsonValue))) :
    Except BitcoindError (List JsonValue) :=
  match collect_results (resps.filterMap id) with
  | Except.error e => Except.error (BitcoindError.Server e)
  | Except.ok res =>
    if res.length ≠ n then Except.error BitcoindError.BatchMissingResponse
    else Except.ok res

/-- The number of non-null successful responses in a batch reply. -/
def successCount (resps : List (Option (Except JsonRpcError JsonValue))) : Nat :=
  (resps.filterMap id).countP (fun r => isOkResult r)

theorem make_requests_err_eq (n : Nat)
    (resps : List (Option (Except JsonRpcError JsonValue))) (e : JsonRpcError)
    (hc : collect_results (resps.filterMap id) = Except.error e) :
    make_requests n resps = Except.error (BitcoindError.Server e) := by
  rw [make_requests, hc]

theorem make_requests_ok_eq (n : Nat)
    (resps : List (Option (Except JsonRpcError JsonValue))) (res : List JsonValue)
    (hc : collect_results (resps.filterMap id) = Except.ok res) :
    make_requests n resps =
      if res.length ≠ n then Except.error BitcoindError.BatchMissingResponse
      else Except.ok res := by
  rw [make_requests, hc]

theorem collect_results_ok (l : List (Except JsonRpcError JsonValue))
    (v : List JsonValue) (h : collect_results l = Except.ok v) :
    v.length = l.length ∧ ∀ r, r ∈ l → isOkResult r = true := by
  induction l generalizing v with
  | nil =>
    cases h
    exact ⟨rfl, by intro r hr; cases hr⟩
  | cons r rs ih =>
    cases r with
    | error e => cases h
    | ok j =>
      rw [collect_results] at h
      cases hc : collect_results rs with
      | error e => rw [hc] at h; cases h
      | ok js =>
        rw [hc] at h
        cases h
        obtain ⟨hlen, hall⟩ := ih js hc
        constructor
        · simp [hlen]
        · intro r hr
          rcases List.mem_cons.mp hr with heq | hmem
          · rw [heq]; rfl
          · exact hall r hmem

theorem collect_results_all_ok (l : List (Except JsonRpcError JsonValue))
    (h : ∀ r, r ∈ l → isOkResult r = true) :
    ∃ v, collect_results l = Except.ok v ∧ v.length = l.length := by
  induction l with
  | nil => exact ⟨[], rfl, rfl⟩
  | cons r rs ih =>
    obtain ⟨v, hv, hlen⟩ := ih (fun r' hr' => h r' (List.mem_cons_of_mem r hr'))
    cases r with
    | error e =>
      have := h (Except.error e) (List.mem_cons_self _ _)
      simp [isOkResult] at this
    | ok j =>
      refine ⟨j :: v, ?_, by simp [hlen]⟩
      rw [collect_results, hv]

/-- Claim C7, counterexample: a batch of 1 request answered by a single
non-null *error* response yields fewer than 1 successful response, yet the
call propagates that server error rather than returning the distinct
`BatchMissingResponse` error the claim promises. -/
theorem c7_counterexample :
    make_requests 1 [some (Except.error (JsonRpcError.Rpc (-3)))] =
      Except.error (BitcoindError.Server (JsonRpcError.Rpc (-3))) ∧
    successCount [some (Except.error (JsonRpcError.Rpc (-3)))] < 1 ∧
    make_requests 1 [some (Except.error (JsonRpcError.Rpc (-3)))] ≠
      Except.error BitcoindError.BatchMissingResponse := by
  refine ⟨rfl, by decide, ?_⟩
  intro h
  rw [make_requests_err_eq 1 [some (Except.error (JsonRpcError.Rpc (-3)))]
    (JsonRpcError.Rpc (-3)) rfl] at h
  simp at h

/-- Claim C7 (amended): a successful batch call returns exactly `n` results,
and fewer than `n` non-null successful responses can never yield a success —
results are never silently truncated. The distinct `BatchMissingResponse`
error is returned when the shortfall comes from missing (null) responses,
i.e. when every non-null response is itself successful; a shortfall caused by
an RPC-error response propagates that error instead. -/
theorem c7_batch_response_count (n : Nat)
    (resps : List (Option (Except JsonRpcError JsonValue))) :
    (∀ v, make_requests n resps = Except.ok v → v.length = n) ∧
    (successCount resps < n → ∀ v, make_requests n resps ≠ Except.ok v) ∧
    ((∀ r, some r ∈ resps → isOkResult r = true) → successCount resps < n →
      make_requests n resps = Except.error BitcoindError.BatchMissingResponse) := by
  refine ⟨?_, ?_, ?_⟩
  · intro v h
    cases hc : collect_results (resps.filterMap id) with
    | error e => rw [make_requests_err_eq n resps e hc] at h; cases h
    | ok res =>
      rw [make_requests_ok_eq n resps res hc] at h
      by_cases hl : res.length ≠ n
      · rw [if_pos hl] at h; cases h
      · rw [if_neg hl] at h
        injection h with h
        subst h
        omega
  · intro hlt v h
    cases hc : collect_results (resps.filterMap id) with
    | error e => rw [make_requests_err_eq n resps e hc] at h; cases h
    | ok res =>
      rw [make_requests_ok_eq n resps res hc] at h
      by_cases hl : res.length ≠ n
      · rw [if_pos hl] at h; cases h
      · obtain ⟨hlen, hall⟩ := collect_results_ok _ _ hc
        have hcnt : successCount resps = (resps.filterMap id).length := by
          rw [successCount]
          exact List.countP_eq_length.mpr (fun r hr => by simp [hall r hr])
        omega
  · intro hok hlt
    have hall : ∀ r, r ∈ resps.filterMap id → isOkResult r = true := by
      intro r hr
      rw [List.mem_filterMap] at hr
      obtain ⟨a, ha, hra⟩ := hr
      cases a with
      | none => cases hra
      | some r' => cases hra; exact hok r ha
    obtain ⟨v, hv, hlen⟩ := collect_results_all_ok _ hall
    have hcnt : successCount resps = (resps.filterMap id).length := by
      rw [successCount]
      exact List.countP_eq_length.mpr (fun r hr => by simp [hall r hr])
    rw [make_requests_ok_eq n resps v hv, if_pos (by omega)]

/-- Claim C7 (witness): a batch of 2 requests answered by one successful
response returns `BatchMissingResponse`. -/
theorem c7_batch_response_count_witness :
    make_requests 2 [some (Except.ok 7)] =
      Except.error BitcoindError.BatchMissingResponse :=
  (c7_batch_response_count 2 [some (Except.ok 7)]).2.2
    (fun r hr => by
      rw [List.mem_singleton] at hr
      injection hr with hh
      rw [hh]
      rfl)
    (by decide)

/-- The mempool membership helper (`is_in_mempool`, interface.rs lines
970-979), applied to the outcome of the `getmempoolentry` node request: any
success means the transaction is in the mempool; the node's "not found" RPC
error (code -5) is reinterpreted as the normal negative answer `false`; every
other error is propagated. -/
def is_in_mempool (resp : Except BitcoindError JsonValue) :
    Except BitcoindError Bool :=
  match resp with
  | Except.ok _ => Except.ok true
  | Except.error (BitcoindError.Server (JsonRpcError.Rpc code)) =>
    if code = -5 then Except.ok false
    else Except.error (BitcoindError.Server (JsonRpcError.Rpc code))
  | Except.error e => Except.error e

theorem is_in_mempool_ok (j : JsonValue) :
    is_in_mempool (Except.ok j) = Except.ok true := rfl

theorem is_in_mempool_rpc (c : Int) :
    is_in_mempool (Except.error (BitcoindError.Server (JsonRpcError.Rpc c))) =
      if c = -5 then Except.ok false
      else Except.error (BitcoindError.Server (JsonRpcError.Rpc c)) := rfl

theorem is_in_mempool_transport (dc : Option SimpleHttpError) :
    is_in_mempool (Except.error (BitcoindError.Server (JsonRpcError.Transport dc))) =
      Except.error (BitcoindError.Server (JsonRpcError.Transport dc)) := rfl

theorem is_in_mempool_json :
    is_in_mempool (Except.error (BitcoindError.Server JsonRpcError.Json)) =
      Except.error (BitcoindError.Server JsonRpcError.Json) := rfl

theorem is_in_mempool_other_rpc :
    is_in_mempool (Except.error (BitcoindError.Server JsonRpcError.OtherRpc)) =
      Except.error (BitcoindError.Server JsonRpcError.OtherRpc) := rfl

theorem is_in_mempool_batch :
    is_in_mempool (Except.error BitcoindError.BatchMissingResponse) =
      Except.error BitcoindError.BatchMissingResponse := rfl

theorem is_in_mempool_custom (s : String) :
    is_in_mempool (Except.error (BitcoindError.Custom s)) =
      Except.error (BitcoindError.Custom s) := rfl

/-- Claim C8: `is_in_mempool` returns the successful boolean `false` exactly
when the node request failed with the "not found" RPC error code -5; any
success of the request returns `true`, and any other error is propagated
unchanged. -/
theorem c8_mempool_not_found (resp : Except BitcoindError JsonValue) :
    (is_in_mempool resp = Except.ok false ↔
      resp = Except.error (BitcoindError.Server (JsonRpcError.Rpc (-5)))) ∧
    (∀ j, resp = Except.ok j → is_in_mempool resp = Except.ok true) ∧
    (∀ e, resp = Except.error e →
      e ≠ BitcoindError.Server (JsonRpcError.Rpc (-5)) →
      is_in_mempool resp = Except.error e) := by
  refine ⟨⟨?_, ?_⟩, ?_, ?_⟩
  · intro h
    cases resp with
    | ok j => rw [is_in_mempool_ok] at h; simp at h
    | error e =>
      cases e with
      | Server je =>
        cases je with
        | Transport dc => rw [is_in_mempool_transport] at h; simp at h
        | Json => rw [is_in_mempool_json] at h; simp at h
        | Rpc c =>
          rw [is_in_mempool_rpc] at h
          by_cases hc : c = -5
          · rw [hc]
          · rw [if_neg hc] at h; simp at h
        | OtherRpc => rw [is_in_mempool_other_rpc] at h; simp at h
      | BatchMissingResponse => rw [is_in_mempool_batch] at h; simp at h
      | Custom s => rw [is_in_mempool_custom] at h; simp at h
  · intro h
    rw [h, is_in_mempool_rpc]
    rfl
  · intro j h
    rw [h, is_in_mempool_ok]
  · intro e h hne
    subst h
    cases e with
    | Server je =>
      cases je with
      | Transport dc => exact is_in_mempool_transport dc
      | Json => exact is_in_mempool_json
      | Rpc c =>
        rw [is_in_mempool_rpc]
        have hc : ¬c = -5 := fun hh => hne (by rw [hh])
        rw [if_neg hc]
      | OtherRpc => exact is_in_mempool_other_rpc
    | BatchMissingResponse => exact is_in_mempool_batch
    | Custom s => exact is_in_mempool_custom s

/-- Claim C8 (witness): the "not found" error yields `Except.ok false`, a
success yields `Except.ok true`, and a transport error is propagated. -/
theorem c8_mempool_not_found_witness :
    is_in_mempool (Except.error (BitcoindError.Server (JsonRpcError.Rpc (-5)))) =
      Except.ok false ∧
    is_in_mempool (Except.ok 42) = Except.ok true ∧
    is_in_mempool (Except.error (BitcoindError.Server (JsonRpcError.Rpc (-28)))) =
      Except.error (BitcoindError.Server (JsonRpcError.Rpc (-28))) :=
  ⟨(c8_mempool_not_found
      (Except.error (BitcoindError.Server (JsonRpcError.Rpc (-5))))).1.mpr rfl,
    (c8_mempool_not_found (Except.ok 42)).2.1 42 rfl,
    (c8_mempool_not_found
        (Except.error (BitcoindError.Server (JsonRpcError.Rpc (-28))))).2.2
      (BitcoindError.Server (JsonRpcError.Rpc (-28))) rfl (by simp)⟩

/-- Modelled from the spec: the vault status progression (the `VaultStatus`
enum is declared in `revaultd.rs`, which is not among the provided sources;
the listvaults handler only compares statuses for equality). -/
inductive VaultStatus
  | Unconfirmed
  | Funded
  | Securing
  | Secured
  | Active
  | Unvaulted
  | Canceling
  | Canceled
  | Spending
  | Spent
  | EmergencyVaulted
deriving DecidableEq, Repr

/-- A vault record, restricted to the fields the listvaults handler of
`daemon_main` reads: the deposit txo and the status. -/
structure Vault where
  txo : TxOut
  status : VaultStatus
deriving DecidableEq, Repr

/-- The status filter of the listvaults handler (main.rs lines 149-153): when
a status is supplied, a vault with a different status is skipped. -/
def statusSkip (sf : Option VaultStatus) (v : Vault) : Bool :=
  match sf with
  | some s => decide (v.status ≠ s)
  | none => false

/-- The txid filter of the listvaults handler (main.rs lines 155-159): when a
txid list is supplied, a vault whose deposit txid is not in the list is
skipped. -/
def txidSkip (tf : Option (List Nat)) (outpoint : OutPoint) : Bool :=
  match tf with
  | some txids => !(decide (outpoint.txid ∈ txids))
  | none => false

/-- The listvaults request handler of `daemon_main` (main.rs lines 144-173):
walk the vault map and push `(value, status, txid, vout)` for every vault
passing both optional filters. -/
def list_vaults : List (OutPoint × Vault) → Option VaultStatus →
    Option (List Nat) → List (Nat × VaultStatus × Nat × Nat)
  | [], _, _ => []
  | (outpoint, vault) :: rest, sf, tf =>
    if statusSkip sf vault then list_vaults rest sf tf
    else if txidSkip tf outpoint then list_vaults rest sf tf
    else (vault.txo.value, vault.status, outpoint.txid, outpoint.vout) ::
      list_vaults rest sf tf

theorem statusSkip_false_iff (sf : Option VaultStatus) (v : Vault) :
    statusSkip sf v = false ↔ ∀ s, sf = some s → v.status = s := by
  cases sf with
  | none =>
    constructor
    · intro _ s hs; cases hs
    · intro _; rfl
  | some s =>
    constructor
    · intro h s' hs'
      injection hs' with hh
      subst hh
      exact not_not.mp (of_decide_eq_false h)
    · intro h
      have hv := h s rfl
      simp [statusSkip, hv]

theorem txidSkip_false_iff (tf : Option (List Nat)) (op : OutPoint) :
    txidSkip tf op = false ↔ ∀ ts, tf = some ts → op.txid ∈ ts := by
  cases tf with
  | none =>
    constructor
    · intro _ ts hts; cases hts
    · intro _; rfl
  | some ts =>
    constructor
    · intro h ts' hts'
      injection hts' with hh
      subst hh
      simpa [txidSkip] using h
    · intro h
      have := h ts rfl
      simp [txidSkip, this]

/-- Sample vault at outpoint (txid 5, vout 0). -/
def vaultB0 : Vault := { txo := { value := 1000, script_pubkey := 1 }, status := VaultStatus.Funded }

/-- Sample vault at outpoint (txid 5, vout 1) — same txid, different vout. -/
def vaultB1 : Vault := { txo := { value := 2000, script_pubkey := 2 }, status := VaultStatus.Funded }

/-- Sample vault map with two vaults sharing a deposit txid. -/
def vaultsB : List (OutPoint × Vault) :=
  [({ txid := 5, vout := 0 }, vaultB0), ({ txid := 5, vout := 1 }, vaultB1)]

/-- Claim C5, counterexample: the handler filters by txid only, not by full
outpoint. Supplying the outpoint set {(5,0)} — which the handler receives as
the txid list [5] — returns both vaults, including the one at deposit
outpoint (5,1), which is not a member of the supplied outpoint set. -/
theorem c5_counterexample :
    list_vaults vaultsB none (some [5]) =
      [(1000, VaultStatus.Funded, 5, 0), (2000, VaultStatus.Funded, 5, 1)] ∧
    ({ txid := 5, vout := 1 } : OutPoint) ∉ [({ txid := 5, vout := 0 } : OutPoint)] := by
  refine ⟨by decide, by decide⟩

/-- Claim C5 (amended): an entry appears in the listvaults response exactly
when it is the `(value, status, txid, vout)` tuple of a vault of the map that
passes both optional filters, where the status filter is equality with the
single supplied status and the outpoint filter matches on the deposit txid
only — the vout of the requested outpoints is ignored, so every vault sharing
a requested txid is returned. -/
theorem c5_list_vaults_filter (vaults : List (OutPoint × Vault))
    (sf : Option VaultStatus) (tf : Option (List Nat))
    (x : Nat × VaultStatus × Nat × Nat) :
    x ∈ list_vaults vaults sf tf ↔
      ∃ op v, (op, v) ∈ vaults ∧
        (∀ s, sf = some s → v.status = s) ∧
        (∀ ts, tf = some ts → op.txid ∈ ts) ∧
        x = (v.txo.value, v.status, op.txid, op.vout) := by
  induction vaults with
  | nil => simp [list_vaults]
  | cons p rest ih =>
    obtain ⟨op0, v0⟩ := p
    simp only [list_vaults]
    cases hs : statusSkip sf v0 with
    | true =>
      rw [if_pos rfl, ih]
      constructor
      · rintro ⟨op, v, hmem, h1, h2, h3⟩
        exact ⟨op, v, List.mem_cons_of_mem _ hmem, h1, h2, h3⟩
      · rintro ⟨op, v, hmem, h1, h2, h3⟩
        rcases List.mem_cons.mp hmem with heq | hmem'
        · injection heq with ho hv
          subst ho; subst hv
          have := (statusSkip_false_iff sf v).mpr h1
          rw [this] at hs
          cases hs
        · exact ⟨op, v, hmem', h1, h2, h3⟩
    | false =>
      cases ht : txidSkip tf op0 with
      | true =>
        rw [if_neg Bool.false_ne_true, if_pos rfl, ih]
        constructor
        · rintro ⟨op, v, hmem, h1, h2, h3⟩
          exact ⟨op, v, List.mem_cons_of_mem _ hmem, h1, h2, h3⟩
        · rintro ⟨op, v, hmem, h1, h2, h3⟩
          rcases List.mem_cons.mp hmem with heq | hmem'
          · injection heq with ho hv
            subst ho; subst hv
            have := (txidSkip_false_iff tf op).mpr h2
            rw [this] at ht
            cases ht
          · exact ⟨op, v, hmem', h1, h2, h3⟩
      | false =>
        rw [if_neg Bool.false_ne_true, if_neg Bool.false_ne_true, List.mem_cons, ih]
        constructor
        · rintro (hx | ⟨op, v, hmem, h1, h2, h3⟩)
          · exact ⟨op0, v0, List.mem_cons_self _ _,
              (statusSkip_false_iff sf v0).mp hs,
              (txidSkip_false_iff tf op0).mp ht, hx⟩
          · exact ⟨op, v, List.mem_cons_of_mem _ hmem, h1, h2, h3⟩
        · rintro ⟨op, v, hmem, h1, h2, h3⟩
          rcases List.mem_cons.mp hmem with heq | hmem'
          · injection heq with ho hv
            subst ho; subst hv
            left; exact h3
          · right; exact ⟨op, v, hmem', h1, h2, h3⟩

end Revaultd
